import Mathlib

/-!
# Binned intensity histograms: serial and thread-partitioned (`mainOMP.cpp`)

A shallow embedding of the histogram functions of `mainOMP.cpp` and of the
bin labels printed by `main`, followed by theorems about them.

Conventions of the embedding.

* `unsigned char` pixels are `Fin 256`; C++ `int` values are `Int`; the
  C++ `/` on `int` is `Int.tdiv` (truncation towards zero).
* `std::vector<int>` is `List Int`.  Every subscript is checked: an index
  outside the vector, a division by zero, a vector built with a negative
  size and the conversion of a non-finite `double` to `int` are reported as
  a `Fault` instead of being given a meaning.
* The counters and sums of the source are 32-bit `int`.  Every counter
  increment, every `+=` of the merge and the addition `255 + num_bins` go
  through `addInt`, which reports a result outside `[INT_MIN, INT_MAX]` as
  the fault `intOverflow` (signed overflow has no defined result).  The
  `int` loop counter of the parallel loop is treated the same way: a buffer
  of more than `INT_MAX` pixels cannot be traversed by it.
* `std::ceil(256 / static_cast<double>(num_bins))` is taken over exact
  rationals.  For `1 ≤ num_bins < 2^31` the `double` quotient is either an
  exact integer or at least `2^-31` away from every integer, far more than
  its rounding error, so the `double` ceiling is the rational one.
* The OpenMP loop is described by the number of threads `T`
  (`omp_get_max_threads()`), a schedule `sched` giving, for every iteration
  index, the value of `omp_get_thread_num()` in that iteration, and the
  order in which the iterations take effect, any permutation of
  `0, …, pixels.size() - 1`.  An iteration writes only into the row of its
  own thread, so iterations of different threads do not interfere.
-/

namespace Histograma

/-- Outcomes of the source that are not a returned histogram. -/
inductive Fault where
  /-- A `std::vector` constructed with a negative element count. -/
  | lengthError
  /-- A non-finite `double` converted to `int`. -/
  | floatToInt
  /-- Integer division by zero. -/
  | divideByZero
  /-- A vector subscript outside the vector. -/
  | outOfRange
  /-- An `int` result outside `[INT_MIN, INT_MAX]`. -/
  | intOverflow
  /-- The typed configuration error named by the specification; no statement
  of the source raises it. -/
  | invalidConfiguration
  deriving DecidableEq

/-- Mirror of `struct Image`. -/
structure Image where
  pixels : List (Fin 256)
  width : Nat
  height : Nat

/-- Largest value of a 32-bit `int`. -/
def INT_MAX : Int := 2147483647

/-- Smallest value of a 32-bit `int`. -/
def INT_MIN : Int := -2147483648

/-- C++ `a + b` on `int`. -/
def addInt (a b : Int) : Except Fault Int :=
  if INT_MIN ≤ a + b ∧ a + b ≤ INT_MAX then .ok (a + b) else .error .intOverflow

/-- Constructor `std::vector<T> v(n, x)`. -/
def vectorInit {α : Type} (n : Int) (x : α) : Except Fault (List α) :=
  if n < 0 then .error .lengthError else .ok (List.replicate n.toNat x)

/-- Read of `v[i]`. -/
def vecGet {α : Type} (v : List α) (i : Int) : Except Fault α :=
  if 0 ≤ i then
    match v[i.toNat]? with
    | some x => .ok x
    | none => .error .outOfRange
  else .error .outOfRange

/-- Write `v[i] = x`. -/
def vecSet {α : Type} (v : List α) (i : Int) (x : α) : Except Fault (List α) :=
  if 0 ≤ i ∧ i < v.length then .ok (v.set i.toNat x) else .error .outOfRange

/-- C++ `a / b` on `int`. -/
def cdiv (a b : Int) : Except Fault Int :=
  if b = 0 then .error .divideByZero else .ok (a.tdiv b)

/-- Initialisation `int x = std::ceil(a / static_cast<double>(n))`, the ceiling taken over
exact rationals; for `n = 0` the quotient is not finite. -/
def ceilDiv (a n : Int) : Except Fault Int :=
  if n = 0 then .error .floatToInt else .ok (Int.ceil ((a : ℚ) / (n : ℚ)))

/-- Local constant `intensity_min` of both histogram functions. -/
def intensity_min : Int := 0

/-- Local constant `intensity_max` of both histogram functions. -/
def intensity_max : Int := 255

/-- Bin size of `createHistogramWithBins_serial`:
`std::ceil((intensity_max - intensity_min + 1) / static_cast<double>(num_bins))`. -/
def bin_size_serial (num_bins : Int) : Except Fault Int :=
  ceilDiv (intensity_max - intensity_min + 1) num_bins

/-- Bin size of `createHistogramWithBins_omp`:
`(intensity_max - intensity_min + num_bins) / num_bins`, the sum being an
`int` addition. -/
def bin_size_omp (num_bins : Int) : Except Fault Int := do
  let s ← addInt (intensity_max - intensity_min) num_bins
  cdiv s num_bins

/-- Bin index of both loops: `(pixel - intensity_min) / bin_size`. -/
def bin_index (pixel : Fin 256) (bin_size : Int) : Except Fault Int :=
  cdiv ((pixel.val : Int) - intensity_min) bin_size

/-- Statement `histogram[i]++` on an `int` counter. -/
def incrAt (histogram : List Int) (i : Int) : Except Fault (List Int) := do
  let c ← vecGet histogram i
  let c ← addInt c 1
  vecSet histogram i c

/-- Loop of `createHistogram`: one counter per intensity value. -/
def createHistogramLoop : List (Fin 256) → List Int → Except Fault (List Int)
  | [], histogram => .ok histogram
  | pixel :: rest, histogram => do
      let histogram ← incrAt histogram (pixel.val : Int)
      createHistogramLoop rest histogram

/-- Function `createHistogram`. -/
def createHistogram (image : Image) : Except Fault (List Int) := do
  let histogram ← vectorInit 256 (0 : Int)
  createHistogramLoop image.pixels histogram

/-- The `for (const auto &pixel: image.pixels)` loop of
`createHistogramWithBins_serial`. -/
def serialLoop (bin_size : Int) :
    List (Fin 256) → List Int → Except Fault (List Int)
  | [], histogram => .ok histogram
  | pixel :: rest, histogram => do
      let b ← bin_index pixel bin_size
      let histogram ← incrAt histogram b
      serialLoop bin_size rest histogram

/-- Function `createHistogramWithBins_serial`. -/
def createHistogramWithBins_serial (image : Image) (num_bins : Int) :
    Except Fault (List Int) := do
  let histogram ← vectorInit num_bins (0 : Int)
  let bin_size ← bin_size_serial num_bins
  serialLoop bin_size image.pixels histogram

/-- Statement `local_histograms[thread_id][bin_index]++`. -/
def incrAt2 (local_histograms : List (List Int)) (thread_id bin_index : Int) :
    Except Fault (List (List Int)) := do
  let row ← vecGet local_histograms thread_id
  let row ← incrAt row bin_index
  vecSet local_histograms thread_id row

/-- Body of the `#pragma omp parallel for` loop, run for the iteration
indices `i` of the list argument in the order in which the iterations take
effect; iteration `i` is run by thread `sched i`. -/
def ompLoop (bin_size : Int) (pixels : List (Fin 256)) (sched : Nat → Nat) :
    List Nat → List (List Int) → Except Fault (List (List Int))
  | [], local_histograms => .ok local_histograms
  | i :: rest, local_histograms => do
      let thread_id : Int := (sched i : Int)
      let pixel ← vecGet pixels (i : Int)
      let b ← bin_index pixel bin_size
      let local_histograms ← incrAt2 local_histograms thread_id b
      ompLoop bin_size pixels sched rest local_histograms

/-- The loop `for (int i = 0; i < image.pixels.size(); i++)` under
`#pragma omp parallel for`.  The counter is an `int`: it reaches every index
only when the buffer has at most `INT_MAX` elements, and overflows
otherwise. -/
def ompFor (bin_size : Int) (pixels : List (Fin 256)) (sched : Nat → Nat)
    (order : List Nat) (local_histograms : List (List Int)) :
    Except Fault (List (List Int)) :=
  if (pixels.length : Int) ≤ INT_MAX then
    ompLoop bin_size pixels sched order local_histograms
  else .error .intOverflow

/-- Statement `histogram[b] += local_histograms[t][b]` on `int` counters. -/
def mergeCell (local_histograms : List (List Int)) (t : Nat)
    (histogram : List Int) (b : Nat) : Except Fault (List Int) := do
  let row ← vecGet local_histograms (t : Int)
  let x ← vecGet row (b : Int)
  let c ← vecGet histogram (b : Int)
  let c ← addInt c x
  vecSet histogram (b : Int) c

/-- The merge loops over `t < T` and `b < num_bins`. -/
def mergeLocal (local_histograms : List (List Int)) (T : Nat) (num_bins : Int)
    (histogram : List Int) : Except Fault (List Int) :=
  (List.range T).foldlM
    (fun histogram t =>
      (List.range num_bins.toNat).foldlM (mergeCell local_histograms t) histogram)
    histogram

/-- Function `createHistogramWithBins_omp`; `T` is `omp_get_max_threads()`,
`sched i` is `omp_get_thread_num()` in iteration `i`, and `order` lists the
iterations of the parallel loop in the order in which they take effect. -/
def createHistogramWithBins_omp (image : Image) (num_bins : Int) (T : Nat)
    (sched : Nat → Nat) (order : List Nat) : Except Fault (List Int) := do
  let histogram ← vectorInit num_bins (0 : Int)
  let bin_size ← bin_size_omp num_bins
  let row ← vectorInit num_bins (0 : Int)
  let local_histograms ← vectorInit (T : Int) row
  let local_histograms ← ompFor bin_size image.pixels sched order local_histograms
  mergeLocal local_histograms T num_bins histogram

/-- Value `bin_start` as printed by `main` for bin `i`. -/
def bin_start (num_bins i : Int) : Except Fault Int := do
  let w ← cdiv 256 num_bins
  pure (i * w)

/-- Value `bin_end` as printed by `main` for bin `i`. -/
def bin_end (num_bins i : Int) : Except Fault Int :=
  if i = num_bins - 1 then .ok 255 else do
    let w ← cdiv 256 num_bins
    pure ((i + 1) * w - 1)

/-! ## Pure descriptions used to state the results -/

/-- Add one to entry `i` of a counter list (no effect outside the list). -/
def bump (h : List Int) (i : Nat) : List Int :=
  h.set i (h.getD i 0 + 1)

/-- Counter list obtained from `h` by bumping entry `f p` for each pixel `p`. -/
def tally (f : Fin 256 → Nat) : List (Fin 256) → List Int → List Int
  | [], h => h
  | p :: ps, h => tally f ps (bump h (f p))

/-- Bin width `(255 + N) / N` for `N` bins, as a natural number. -/
def binWidth (N : Nat) : Nat := (255 + N) / N

/-- Sum of column `j` over the rows of a matrix of counters. -/
def colSum (m : List (List Int)) (j : Nat) : Int :=
  (m.map (fun row => row.getD j 0)).sum

/-! ## Vector primitives -/

theorem addInt_ok (a b : Int) (h1 : INT_MIN ≤ a + b) (h2 : a + b ≤ INT_MAX) :
    addInt a b = .ok (a + b) := by
  simp [addInt, h1, h2]

theorem addInt_overflow (a b : Int) (h : INT_MAX < a + b) :
    addInt a b = .error .intOverflow := by
  have : ¬ (a + b ≤ INT_MAX) := by omega
  simp [addInt, this]

theorem vecGet_natCast {α : Type} (v : List α) (i : Nat) (hi : i < v.length) :
    vecGet v (i : Int) = .ok (v.get ⟨i, hi⟩) := by
  simp [vecGet, List.getElem?_eq_getElem hi]

theorem vecSet_natCast {α : Type} (v : List α) (i : Nat) (x : α) (hi : i < v.length) :
    vecSet v (i : Int) x = .ok (v.set i x) := by
  simp [vecSet, hi]

theorem get_eq_getD (h : List Int) (i : Nat) (hi : i < h.length) :
    h.get ⟨i, hi⟩ = h.getD i 0 := by
  rw [List.get_eq_getElem, List.getD_eq_getElem _ 0 hi]

theorem incrAt_ok (h : List Int) (i : Nat) (hi : i < h.length)
    (h0 : INT_MIN ≤ h.getD i 0 + 1) (h1 : h.getD i 0 + 1 ≤ INT_MAX) :
    incrAt h (i : Int) = .ok (bump h i) := by
  have e : addInt (h.getD i 0) 1 = .ok (h.getD i 0 + 1) := addInt_ok _ _ h0 h1
  simp only [incrAt, vecGet_natCast h i hi, get_eq_getD h i hi, e,
    vecSet_natCast h i _ hi, bump, bind, Except.bind]

theorem incrAt_natCast (h : List Int) (i : Nat) (hi : i < h.length)
    (h0 : 0 ≤ h.getD i 0) (h1 : h.getD i 0 < INT_MAX) :
    incrAt h (i : Int) = .ok (bump h i) :=
  incrAt_ok h i hi (by unfold INT_MIN; omega) (by omega)

theorem incrAt_overflow (h : List Int) (i : Nat) (hi : i < h.length)
    (h1 : h.getD i 0 = INT_MAX) :
    incrAt h (i : Int) = .error .intOverflow := by
  have e : addInt (h.getD i 0) 1 = .error .intOverflow :=
    addInt_overflow _ _ (by omega)
  simp only [incrAt, vecGet_natCast h i hi, get_eq_getD h i hi, e, bind, Except.bind]

theorem incrAt_cases (h : List Int) (i : Nat) (hi : i < h.length) :
    incrAt h (i : Int) = .ok (bump h i) ∨ incrAt h (i : Int) = .error .intOverflow := by
  by_cases hc : INT_MIN ≤ h.getD i 0 + 1 ∧ h.getD i 0 + 1 ≤ INT_MAX
  · left
    have e : addInt (h.getD i 0) 1 = .ok (h.getD i 0 + 1) := addInt_ok _ _ hc.1 hc.2
    simp only [incrAt, vecGet_natCast h i hi, get_eq_getD h i hi, e,
      vecSet_natCast h i _ hi, bump, bind, Except.bind]
  · right
    have e : addInt (h.getD i 0) 1 = .error .intOverflow := by
      unfold addInt
      rw [if_neg hc]
    simp only [incrAt, vecGet_natCast h i hi, get_eq_getD h i hi, e, bind, Except.bind]

theorem cdiv_natCast (a b : Nat) (hb : 0 < b) :
    cdiv (a : Int) (b : Int) = .ok ((a / b : Nat) : Int) := by
  have hb0 : (b : Int) ≠ 0 := by omega
  have e : (a : Int).tdiv (b : Int) = ((a / b : Nat) : Int) := by
    rw [Int.tdiv_eq_ediv (by omega) (by omega)]
    norm_cast
  simp [cdiv, hb0, e]

@[simp] theorem bump_length (h : List Int) (i : Nat) : (bump h i).length = h.length := by
  simp [bump]

theorem bump_getD (h : List Int) (i j : Nat) (hi : i < h.length) :
    (bump h i).getD j 0 = h.getD j 0 + (if j = i then 1 else 0) := by
  unfold bump
  by_cases hji : j = i
  · subst hji
    simp [List.getD_eq_getElem?_getD, List.getElem?_set, hi]
  · have : ¬ i = j := fun e => hji e.symm
    simp [List.getD_eq_getElem?_getD, List.getElem?_set, hji, this]

@[simp] theorem tally_length (f : Fin 256 → Nat) (ps : List (Fin 256)) (h : List Int) :
    (tally f ps h).length = h.length := by
  induction ps generalizing h with
  | nil => rfl
  | cons p ps ih => simp [tally, ih]

theorem countP_cons_int (f : Fin 256 → Nat) (p : Fin 256) (ps : List (Fin 256)) (j : Nat) :
    (((p :: ps).countP (fun q => decide (f q = j)) : Nat) : Int)
      = (if j = f p then 1 else 0) + ((ps.countP (fun q => decide (f q = j)) : Nat) : Int) := by
  rw [List.countP_cons]
  by_cases e : f p = j
  · have e2 : j = f p := e.symm
    rw [if_pos e2, if_pos (by simpa using e)]
    push_cast
    ring
  · have e2 : ¬ j = f p := fun x => e x.symm
    rw [if_neg e2, if_neg (by simpa using e)]
    simp

theorem tally_getD (f : Fin 256 → Nat) (ps : List (Fin 256)) (h : List Int)
    (hf : ∀ p ∈ ps, f p < h.length) (j : Nat) :
    (tally f ps h).getD j 0 = h.getD j 0 + (ps.countP (fun p => decide (f p = j)) : Nat) := by
  induction ps generalizing h with
  | nil => simp [tally]
  | cons p ps ih =>
    have hp : f p < h.length := hf p (List.mem_cons_self _ _)
    have hrest : ∀ q ∈ ps, f q < (bump h (f p)).length := by
      intro q hq
      simpa using hf q (List.mem_cons_of_mem _ hq)
    rw [tally, ih _ hrest, bump_getD h (f p) j hp, countP_cons_int]
    ring

/-! ## Bin width -/

theorem binWidth_mul_le (N : Nat) : binWidth N * N ≤ 255 + N :=
  Nat.div_mul_le_self _ _

theorem le_binWidth_mul (N : Nat) (hN : 1 ≤ N) : 256 ≤ binWidth N * N := by
  have h1 := Nat.div_add_mod (255 + N) N
  have h2 := Nat.mod_lt (255 + N) (show N > 0 from hN)
  have h3 : N * binWidth N = binWidth N * N := Nat.mul_comm _ _
  unfold binWidth at *
  omega

theorem binWidth_pos (N : Nat) (hN : 1 ≤ N) : 0 < binWidth N := by
  have h := le_binWidth_mul N hN
  rcases Nat.eq_zero_or_pos (binWidth N) with h0 | h0
  · rw [h0] at h; omega
  · exact h0

theorem div_binWidth_lt (N : Nat) (hN : 1 ≤ N) (p : Nat) (hp : p < 256) :
    p / binWidth N < N := by
  rw [Nat.div_lt_iff_lt_mul (binWidth_pos N hN)]
  have h := le_binWidth_mul N hN
  have h3 : N * binWidth N = binWidth N * N := Nat.mul_comm _ _
  omega

theorem ceil_256_div (N : Nat) (hN : 1 ≤ N) :
    Int.ceil ((256 : ℚ) / (N : ℚ)) = ((binWidth N : Nat) : Int) := by
  have hNq : (0 : ℚ) < (N : ℚ) := by exact_mod_cast hN
  have h1 : ((binWidth N : Nat) : ℚ) * (N : ℚ) ≤ 255 + (N : ℚ) := by
    exact_mod_cast binWidth_mul_le N
  have h2 : (256 : ℚ) ≤ ((binWidth N : Nat) : ℚ) * (N : ℚ) := by
    exact_mod_cast le_binWidth_mul N hN
  rw [Int.ceil_eq_iff]
  constructor
  · rw [lt_div_iff₀ hNq]
    push_cast
    linarith
  · rw [div_le_iff₀ hNq]
    push_cast
    linarith

theorem bin_size_serial_natCast (N : Nat) (hN : 1 ≤ N) :
    bin_size_serial (N : Int) = .ok ((binWidth N : Nat) : Int) := by
  have hN0 : (N : Int) ≠ 0 := by omega
  have e := ceil_256_div N hN
  have e2 : intensity_max - intensity_min + 1 = 256 := by
    simp [intensity_max, intensity_min]
  simp only [bin_size_serial, e2, ceilDiv, hN0, if_false]
  push_cast at e ⊢
  rw [e]

theorem bin_size_omp_natCast (N : Nat) (hN : 1 ≤ N) (hmax : N ≤ 2147483392) :
    bin_size_omp (N : Int) = .ok ((binWidth N : Nat) : Int) := by
  have e := cdiv_natCast (255 + N) N hN
  have e2 : intensity_max - intensity_min = 255 := by
    simp [intensity_max, intensity_min]
  have e3 : addInt 255 (N : Int) = .ok (255 + (N : Int)) :=
    addInt_ok _ _ (by unfold INT_MIN; omega) (by unfold INT_MAX; omega)
  push_cast at e
  simp only [bin_size_omp, e2, e3, bind, Except.bind, e]
  simp [binWidth]

theorem bin_size_omp_overflow (n : Int) (h : 2147483392 < n) :
    bin_size_omp n = .error .intOverflow := by
  have e2 : intensity_max - intensity_min = 255 := by
    simp [intensity_max, intensity_min]
  have e3 : addInt 255 n = .error .intOverflow :=
    addInt_overflow _ _ (by unfold INT_MAX; omega)
  simp only [bin_size_omp, e2, e3, bind, Except.bind]

theorem bin_index_natCast (p : Fin 256) (w : Nat) (hw : 0 < w) :
    bin_index p (w : Int) = .ok ((p.val / w : Nat) : Int) := by
  simp only [bin_index, intensity_min, sub_zero, cdiv_natCast p.val w hw]

/-! ## The serial loop -/

theorem serialLoop_eq (w : Nat) (hw : 0 < w) (ps : List (Fin 256)) (h : List Int)
    (hb : ∀ p ∈ ps, p.val / w < h.length)
    (h0 : ∀ j, 0 ≤ h.getD j 0)
    (h1 : ∀ j, h.getD j 0 + ((ps.countP (fun p => decide (p.val / w = j)) : Nat) : Int)
      ≤ INT_MAX) :
    serialLoop (w : Int) ps h = .ok (tally (fun p => p.val / w) ps h) := by
  induction ps generalizing h with
  | nil => rfl
  | cons p ps ih =>
    have hp : p.val / w < h.length := hb p (List.mem_cons_self _ _)
    have hrest : ∀ q ∈ ps, q.val / w < (bump h (p.val / w)).length := by
      intro q hq
      simpa using hb q (List.mem_cons_of_mem _ hq)
    have hlt : h.getD (p.val / w) 0 < INT_MAX := by
      have := h1 (p.val / w)
      rw [countP_cons_int (fun q => q.val / w)] at this
      simp only [if_true] at this
      have hc : (0 : Int) ≤ ((ps.countP (fun q => decide (q.val / w = p.val / w)) : Nat) : Int) :=
        Int.natCast_nonneg _
      omega
    have h0b : ∀ j, 0 ≤ (bump h (p.val / w)).getD j 0 := by
      intro j
      rw [bump_getD h _ j hp]
      have := h0 j
      split <;> omega
    have h1b : ∀ j, (bump h (p.val / w)).getD j 0
        + ((ps.countP (fun q => decide (q.val / w = j)) : Nat) : Int) ≤ INT_MAX := by
      intro j
      have := h1 j
      rw [countP_cons_int (fun q => q.val / w)] at this
      rw [bump_getD h _ j hp]
      omega
    simp only [serialLoop, bin_index_natCast p w hw, bind, Except.bind,
      incrAt_natCast h _ hp (h0 _) hlt, tally]
    exact ih _ hrest h0b h1b

theorem serialLoop_no_outOfRange (w : Nat) (hw : 0 < w) (ps : List (Fin 256)) (h : List Int)
    (hb : ∀ p ∈ ps, p.val / w < h.length) :
    serialLoop (w : Int) ps h ≠ .error .outOfRange := by
  induction ps generalizing h with
  | nil => simp [serialLoop]
  | cons p ps ih =>
    have hp : p.val / w < h.length := hb p (List.mem_cons_self _ _)
    have hrest : ∀ q ∈ ps, q.val / w < (bump h (p.val / w)).length := by
      intro q hq
      simpa using hb q (List.mem_cons_of_mem _ hq)
    rcases incrAt_cases h (p.val / w) hp with e | e
    · simp only [serialLoop, bin_index_natCast p w hw, bind, Except.bind, e]
      exact ih _ hrest
    · simp only [serialLoop, bin_index_natCast p w hw, bind, Except.bind, e]
      simp

theorem serialLoop_replicate_overflow (w : Nat) (hw : 0 < w) (p : Fin 256) (k : Nat) :
    ∀ h : List Int, p.val / w < h.length → 0 ≤ h.getD (p.val / w) 0 →
      h.getD (p.val / w) 0 ≤ INT_MAX → INT_MAX < h.getD (p.val / w) 0 + (k : Int) →
      serialLoop (w : Int) (List.replicate k p) h = .error .intOverflow := by
  induction k with
  | zero =>
    intro h _ _ h2 h3
    omega
  | succ k ih =>
    intro h hp h0 h2 h3
    rw [List.replicate_succ]
    by_cases hc : h.getD (p.val / w) 0 = INT_MAX
    · simp only [serialLoop, bin_index_natCast p w hw, bind, Except.bind,
        incrAt_overflow h _ hp hc]
    · have hlt : h.getD (p.val / w) 0 < INT_MAX := by omega
      simp only [serialLoop, bin_index_natCast p w hw, bind, Except.bind,
        incrAt_natCast h _ hp h0 hlt]
      apply ih
      · simpa using hp
      · rw [bump_getD h _ _ hp, if_pos rfl]; omega
      · rw [bump_getD h _ _ hp, if_pos rfl]; omega
      · rw [bump_getD h _ _ hp, if_pos rfl]; push_cast at h3; omega

theorem vectorInit_natCast {α : Type} (N : Nat) (x : α) :
    vectorInit (N : Int) x = .ok (List.replicate N x) := by
  have : ¬ (N : Int) < 0 := by omega
  simp [vectorInit, this]

theorem getD_replicate_zero (N j : Nat) : (List.replicate N (0 : Int)).getD j 0 = 0 := by
  by_cases hj : j < N
  · simp [List.getD_eq_getElem?_getD, List.getElem?_replicate, hj]
  · apply List.getD_eq_default
    simp
    omega

theorem countP_le_of_length (ps : List (Fin 256)) (g : Fin 256 → Bool)
    (hlen : ps.length ≤ 2147483647) : ((ps.countP g : Nat) : Int) ≤ INT_MAX := by
  have := List.countP_le_length g (l := ps)
  unfold INT_MAX
  omega

/-- Closed form of the serial histogram when no bin receives more than
`INT_MAX` pixels. -/
theorem serial_closed_of_counts (image : Image) (N : Nat) (hN : 1 ≤ N)
    (hc : ∀ j, ((image.pixels.countP (fun p => decide (p.val / binWidth N = j)) : Nat) : Int)
      ≤ INT_MAX) :
    createHistogramWithBins_serial image (N : Int)
      = .ok (tally (fun p => p.val / binWidth N) image.pixels (List.replicate N 0)) := by
  have hb : ∀ p ∈ image.pixels, p.val / binWidth N < (List.replicate N (0 : Int)).length := by
    intro p _
    simpa using div_binWidth_lt N hN p.val p.isLt
  simp only [createHistogramWithBins_serial, vectorInit_natCast, bind, Except.bind,
    bin_size_serial_natCast N hN]
  apply serialLoop_eq (binWidth N) (binWidth_pos N hN) image.pixels _ hb
  · intro j; rw [getD_replicate_zero]
  · intro j; rw [getD_replicate_zero, zero_add]; exact hc j

/-- Closed form of the serial histogram for a buffer of at most `INT_MAX`
pixels. -/
theorem serial_closed (image : Image) (N : Nat) (hN : 1 ≤ N)
    (hlen : image.pixels.length ≤ 2147483647) :
    createHistogramWithBins_serial image (N : Int)
      = .ok (tally (fun p => p.val / binWidth N) image.pixels (List.replicate N 0)) :=
  serial_closed_of_counts image N hN (fun _ => countP_le_of_length _ _ hlen)

theorem serial_no_outOfRange (image : Image) (N : Nat) (hN : 1 ≤ N) :
    createHistogramWithBins_serial image (N : Int) ≠ .error .outOfRange := by
  have hb : ∀ p ∈ image.pixels, p.val / binWidth N < (List.replicate N (0 : Int)).length := by
    intro p _
    simpa using div_binWidth_lt N hN p.val p.isLt
  simp only [createHistogramWithBins_serial, vectorInit_natCast, bind, Except.bind,
    bin_size_serial_natCast N hN]
  exact serialLoop_no_outOfRange (binWidth N) (binWidth_pos N hN) image.pixels _ hb

/-- A buffer of `k > INT_MAX` equal pixels overflows the counter of their bin. -/
theorem serial_replicate_overflow (N : Nat) (hN : 1 ≤ N) (p : Fin 256) (k width height : Nat)
    (hk : 2147483647 < k) :
    createHistogramWithBins_serial ⟨List.replicate k p, width, height⟩ (N : Int)
      = .error .intOverflow := by
  simp only [createHistogramWithBins_serial, vectorInit_natCast, bind, Except.bind,
    bin_size_serial_natCast N hN]
  apply serialLoop_replicate_overflow (binWidth N) (binWidth_pos N hN) p k
  · simpa using div_binWidth_lt N hN p.val p.isLt
  · rw [getD_replicate_zero]
  · rw [getD_replicate_zero]; unfold INT_MAX; omega
  · rw [getD_replicate_zero]; unfold INT_MAX; omega

/-! ## The thread-partitioned loop and the merge -/

theorem sum_set_int (l : List Int) (t : Nat) (x : Int) (ht : t < l.length) :
    (l.set t x).sum = l.sum + (x - l.getD t 0) := by
  induction l generalizing t with
  | nil => simp at ht
  | cons a l ih =>
    cases t with
    | zero => simp; ring
    | succ t =>
      have ht2 : t < l.length := by simpa using ht
      simp only [List.set_cons_succ, List.sum_cons, ih t ht2, List.getD_cons_succ]
      ring

theorem colSum_set (m : List (List Int)) (t : Nat) (row : List Int) (j : Nat)
    (ht : t < m.length) :
    colSum (m.set t row) j = colSum m j + (row.getD j 0 - (m.getD t []).getD j 0) := by
  unfold colSum
  rw [List.map_set, sum_set_int _ _ _ (by simpa using ht)]
  congr 2
  simp [List.getD_eq_getElem?_getD, List.getElem?_eq_getElem ht]

theorem colSum_append (m1 m2 : List (List Int)) (j : Nat) :
    colSum (m1 ++ m2) j = colSum m1 j + colSum m2 j := by
  simp [colSum]

theorem colSum_nonneg (m : List (List Int)) (j : Nat)
    (hpos : ∀ row ∈ m, ∀ i, 0 ≤ row.getD i 0) : 0 ≤ colSum m j := by
  unfold colSum
  apply List.sum_nonneg
  intro x hx
  obtain ⟨row, hrow, rfl⟩ := List.mem_map.mp hx
  exact hpos row hrow j

theorem getD_row_mem (m : List (List Int)) (t : Nat) (ht : t < m.length) :
    m.getD t [] ∈ m := by
  have e : m.getD t [] = m.get ⟨t, ht⟩ := by
    simp [List.getD_eq_getElem?_getD, List.getElem?_eq_getElem ht]
  rw [e]
  exact List.get_mem _ _ _

theorem entry_le_colSum (m : List (List Int)) (t j : Nat) (ht : t < m.length)
    (hpos : ∀ row ∈ m, ∀ i, 0 ≤ row.getD i 0) :
    (m.getD t []).getD j 0 ≤ colSum m j := by
  unfold colSum
  apply List.single_le_sum
  · intro x hx
    obtain ⟨row, hrow, rfl⟩ := List.mem_map.mp hx
    exact hpos row hrow j
  · exact List.mem_map.mpr ⟨_, getD_row_mem m t ht, rfl⟩

theorem colSum_take_le (m : List (List Int)) (k j : Nat)
    (hpos : ∀ row ∈ m, ∀ i, 0 ≤ row.getD i 0) : colSum (m.take k) j ≤ colSum m j := by
  have e : colSum m j = colSum (m.take k) j + colSum (m.drop k) j := by
    rw [← colSum_append, List.take_append_drop]
  have h := colSum_nonneg (m.drop k) j (fun row hrow => hpos row (List.mem_of_mem_drop hrow))
  omega

theorem incrAt2_natCast (m : List (List Int)) (t b : Nat) (ht : t < m.length)
    (hb : b < (m.getD t []).length) (h0 : 0 ≤ (m.getD t []).getD b 0)
    (h1 : (m.getD t []).getD b 0 < INT_MAX) :
    incrAt2 m (t : Int) (b : Int) = .ok (m.set t (bump (m.getD t []) b)) := by
  have e : m.get ⟨t, ht⟩ = m.getD t [] := by
    simp [List.getD_eq_getElem?_getD, List.getElem?_eq_getElem ht]
  simp only [incrAt2, vecGet_natCast m t ht, bind, Except.bind, e,
    incrAt_natCast _ b hb h0 h1, vecSet_natCast m t _ ht]

theorem incrAt2_cases (m : List (List Int)) (t b : Nat) (ht : t < m.length)
    (hb : b < (m.getD t []).length) :
    incrAt2 m (t : Int) (b : Int) = .ok (m.set t (bump (m.getD t []) b)) ∨
      incrAt2 m (t : Int) (b : Int) = .error .intOverflow := by
  have e : m.get ⟨t, ht⟩ = m.getD t [] := by
    simp [List.getD_eq_getElem?_getD, List.getElem?_eq_getElem ht]
  rcases incrAt_cases (m.getD t []) b hb with e1 | e1
  · left
    simp only [incrAt2, vecGet_natCast m t ht, bind, Except.bind, e, e1,
      vecSet_natCast m t _ ht]
  · right
    simp only [incrAt2, vecGet_natCast m t ht, bind, Except.bind, e, e1]

theorem incrAt2_ok (m : List (List Int)) (t b : Nat) (ht : t < m.length)
    (hb : b < (m.getD t []).length) (h0 : INT_MIN ≤ (m.getD t []).getD b 0 + 1)
    (h1 : (m.getD t []).getD b 0 + 1 ≤ INT_MAX) :
    incrAt2 m (t : Int) (b : Int) = .ok (m.set t (bump (m.getD t []) b)) := by
  have e : m.get ⟨t, ht⟩ = m.getD t [] := by
    simp [List.getD_eq_getElem?_getD, List.getElem?_eq_getElem ht]
  simp only [incrAt2, vecGet_natCast m t ht, bind, Except.bind, e,
    incrAt_ok _ b hb h0 h1, vecSet_natCast m t _ ht]

theorem getD_mem_rows (m : List (List Int)) (n t : Nat) (hrows : ∀ row ∈ m, row.length = n)
    (ht : t < m.length) : (m.getD t []).length = n :=
  hrows _ (getD_row_mem m t ht)

theorem ompLoop_spec (w n : Nat) (hw : 0 < w) (pixels : List (Fin 256)) (sched : Nat → Nat)
    (order : List Nat) :
    ∀ (m : List (List Int)),
      (∀ i ∈ order, i < pixels.length ∧ sched i < m.length) →
      (∀ row ∈ m, row.length = n) →
      (∀ p : Fin 256, p.val / w < n) →
      (∀ row ∈ m, ∀ i, 0 ≤ row.getD i 0) →
      (∀ j, colSum m j +
        ((order.countP (fun i => decide ((pixels.getD i 0).val / w = j)) : Nat) : Int)
          ≤ INT_MAX) →
      ∃ m2, ompLoop (w : Int) pixels sched order m = .ok m2 ∧ m2.length = m.length ∧
        (∀ row ∈ m2, row.length = n) ∧ (∀ row ∈ m2, ∀ i, 0 ≤ row.getD i 0) ∧
        ∀ j, colSum m2 j = colSum m j +
          (order.countP (fun i => decide ((pixels.getD i 0).val / w = j)) : Nat) := by
  induction order with
  | nil =>
    intro m _ hrows _ hpos _
    exact ⟨m, rfl, rfl, hrows, hpos, by simp⟩
  | cons i order ih =>
    intro m hs hrows hbin hpos hmax
    obtain ⟨hi, ht⟩ := hs i (List.mem_cons_self _ _)
    have hlen : (m.getD (sched i) []).length = n := getD_mem_rows m n _ hrows ht
    have epix : pixels.get ⟨i, hi⟩ = pixels.getD i 0 := by
      rw [List.get_eq_getElem, List.getD_eq_getElem _ 0 hi]
    have hb : (pixels.getD i 0).val / w < (m.getD (sched i) []).length := by
      rw [hlen]; exact hbin _
    have hcons : ∀ j,
        (((i :: order).countP (fun i => decide ((pixels.getD i 0).val / w = j)) : Nat) : Int)
          = (if j = (pixels.getD i 0).val / w then 1 else 0)
            + ((order.countP (fun i => decide ((pixels.getD i 0).val / w = j)) : Nat) : Int) := by
      intro j
      rw [List.countP_cons]
      by_cases e : (pixels.getD i 0).val / w = j
      · have e5 : j = (pixels.getD i 0).val / w := e.symm
        rw [if_pos e5, if_pos (by simpa using e)]
        push_cast
        ring
      · have e5 : ¬ j = (pixels.getD i 0).val / w := fun x => e x.symm
        rw [if_neg e5, if_neg (by simpa using e)]
        simp
    have h0 : 0 ≤ (m.getD (sched i) []).getD ((pixels.getD i 0).val / w) 0 :=
      hpos _ (getD_row_mem m _ ht) _
    have h1 : (m.getD (sched i) []).getD ((pixels.getD i 0).val / w) 0 < INT_MAX := by
      have a1 := entry_le_colSum m (sched i) ((pixels.getD i 0).val / w) ht hpos
      have a2 := hmax ((pixels.getD i 0).val / w)
      rw [hcons, if_pos rfl] at a2
      have a3 : (0 : Int) ≤ ((order.countP
          (fun k => decide ((pixels.getD k 0).val / w = (pixels.getD i 0).val / w)) : Nat) : Int) :=
        Int.natCast_nonneg _
      omega
    have hs2 : ∀ k ∈ order, k < pixels.length ∧
        sched k < (m.set (sched i) (bump (m.getD (sched i) [])
          ((pixels.getD i 0).val / w))).length := by
      intro k hk
      simpa using hs k (List.mem_cons_of_mem _ hk)
    have hrows2 : ∀ row ∈ m.set (sched i) (bump (m.getD (sched i) [])
        ((pixels.getD i 0).val / w)), row.length = n := by
      intro row hrow
      rcases List.mem_or_eq_of_mem_set hrow with h1 | h1
      · exact hrows row h1
      · rw [h1, bump_length, hlen]
    have hpos2 : ∀ row ∈ m.set (sched i) (bump (m.getD (sched i) [])
        ((pixels.getD i 0).val / w)), ∀ k, 0 ≤ row.getD k 0 := by
      intro row hrow k
      rcases List.mem_or_eq_of_mem_set hrow with h2 | h2
      · exact hpos row h2 k
      · rw [h2, bump_getD _ _ k hb]
        have := hpos _ (getD_row_mem m _ ht) k
        split <;> omega
    have hmax2 : ∀ j, colSum (m.set (sched i) (bump (m.getD (sched i) [])
        ((pixels.getD i 0).val / w))) j +
        ((order.countP (fun i => decide ((pixels.getD i 0).val / w = j)) : Nat) : Int)
          ≤ INT_MAX := by
      intro j
      have a2 := hmax j
      rw [hcons] at a2
      rw [colSum_set m _ _ j ht, bump_getD _ _ j hb]
      omega
    obtain ⟨m2, e1, e2, e3, e3b, e4⟩ := ih _ hs2 hrows2 hbin hpos2 hmax2
    refine ⟨m2, ?_, ?_, e3, e3b, ?_⟩
    · simp only [ompLoop, vecGet_natCast pixels i hi, epix, bin_index_natCast _ w hw, bind,
        Except.bind, incrAt2_natCast m _ _ ht hb h0 h1]
      exact e1
    · rw [e2]; simp
    · intro j
      rw [e4 j, colSum_set m _ _ j ht, bump_getD _ _ j hb, hcons]
      ring

theorem countP_range_getD (pixels : List (Fin 256)) (g : Fin 256 → Bool) :
    (List.range pixels.length).countP (fun i => g (pixels.getD i 0)) = pixels.countP g := by
  have e : pixels = (List.range pixels.length).map (fun i => pixels.getD i 0) := by
    apply List.ext_getElem
    · simp
    · intro k h1 h2
      simp [List.getD_eq_getElem?_getD, List.getElem?_eq_getElem h1]
  conv_rhs => rw [e]
  rw [List.countP_map]
  rfl

theorem getD_set_int (h : List Int) (i j : Nat) (x : Int) (hi : i < h.length) :
    (h.set i x).getD j 0 = if j = i then x else h.getD j 0 := by
  by_cases hji : j = i
  · subst hji
    simp [List.getD_eq_getElem?_getD, List.getElem?_set, hi]
  · have : ¬ i = j := fun e => hji e.symm
    simp [List.getD_eq_getElem?_getD, List.getElem?_set, hji, this]

theorem mergeCell_eq (m : List (List Int)) (t b : Nat) (h : List Int) (ht : t < m.length)
    (hb : b < (m.getD t []).length) (hh : b < h.length)
    (h0 : INT_MIN ≤ h.getD b 0 + (m.getD t []).getD b 0)
    (h1 : h.getD b 0 + (m.getD t []).getD b 0 ≤ INT_MAX) :
    mergeCell m t h b = .ok (h.set b (h.getD b 0 + (m.getD t []).getD b 0)) := by
  have e : m.get ⟨t, ht⟩ = m.getD t [] := by
    simp [List.getD_eq_getElem?_getD, List.getElem?_eq_getElem ht]
  simp only [mergeCell, vecGet_natCast m t ht, bind, Except.bind, e,
    vecGet_natCast _ b hb, get_eq_getD _ b hb, vecGet_natCast h b hh, get_eq_getD h b hh,
    addInt_ok _ _ h0 h1, vecSet_natCast h b _ hh]

theorem mergeRow_spec (m : List (List Int)) (t n : Nat) (h : List Int) (ht : t < m.length)
    (hrow : (m.getD t []).length = n) (hh : h.length = n)
    (hpos : ∀ j, 0 ≤ h.getD j 0) (hrpos : ∀ j, 0 ≤ (m.getD t []).getD j 0)
    (hmax : ∀ j, h.getD j 0 + (m.getD t []).getD j 0 ≤ INT_MAX) :
    ∀ k, k ≤ n → ∃ h2, (List.range k).foldlM (mergeCell m t) h = .ok h2 ∧ h2.length = n ∧
      ∀ j, h2.getD j 0 = h.getD j 0 + (if j < k then (m.getD t []).getD j 0 else 0) := by
  intro k
  induction k with
  | zero =>
    intro _
    exact ⟨h, rfl, hh, by simp⟩
  | succ k ih =>
    intro hk
    obtain ⟨h1, e1, e2, e3⟩ := ih (by omega)
    have hk1 : k < h1.length := by omega
    have hk2 : k < (m.getD t []).length := by omega
    have ek : h1.getD k 0 = h.getD k 0 := by
      rw [e3 k, if_neg (by omega)]
      ring
    refine ⟨h1.set k (h1.getD k 0 + (m.getD t []).getD k 0), ?_, by simpa using e2, ?_⟩
    · rw [List.range_succ, List.foldlM_append, e1]
      simp only [bind, Except.bind, List.foldlM_cons, List.foldlM_nil]
      rw [mergeCell_eq m t k h1 ht hk2 hk1
        (by rw [ek]; have := hpos k; have := hrpos k; unfold INT_MIN; omega)
        (by rw [ek]; exact hmax k)]
      rfl
    · intro j
      rw [getD_set_int h1 k j _ hk1]
      by_cases hjk : j = k
      · subst hjk
        rw [if_pos rfl, e3 j, if_neg (by omega), if_pos (by omega)]
        ring
      · rw [if_neg hjk, e3 j]
        by_cases hlt : j < k
        · rw [if_pos hlt, if_pos (by omega)]
        · rw [if_neg hlt, if_neg (by omega)]

theorem mergeLocal_spec (m : List (List Int)) (n : Nat) (h : List Int)
    (hrows : ∀ row ∈ m, row.length = n) (hh : h.length = n)
    (hmpos : ∀ row ∈ m, ∀ i, 0 ≤ row.getD i 0) (hpos : ∀ j, 0 ≤ h.getD j 0)
    (hmax : ∀ j, h.getD j 0 + colSum m j ≤ INT_MAX) :
    ∀ k, k ≤ m.length → ∃ h2, mergeLocal m k (n : Int) h = .ok h2 ∧ h2.length = n ∧
      ∀ j, h2.getD j 0 = h.getD j 0 + colSum (m.take k) j := by
  intro k
  induction k with
  | zero =>
    intro _
    exact ⟨h, rfl, hh, by simp [colSum]⟩
  | succ k ih =>
    intro hk
    obtain ⟨h1, e1, e2, e3⟩ := ih (by omega)
    have ht : k < m.length := by omega
    have hrow : (m.getD k []).length = n := getD_mem_rows m n k hrows ht
    have et : m.take (k + 1) = m.take k ++ [m.getD k []] := by
      rw [List.take_succ]
      simp [List.getD_eq_getElem?_getD, List.getElem?_eq_getElem ht]
    have esingle : ∀ j, colSum [m.getD k []] j = (m.getD k []).getD j 0 := by
      intro j
      simp [colSum]
    have h1pos : ∀ j, 0 ≤ h1.getD j 0 := by
      intro j
      rw [e3 j]
      have a1 := hpos j
      have a2 := colSum_nonneg (m.take k) j
        (fun row hrow => hmpos row (List.mem_of_mem_take hrow))
      omega
    have h1max : ∀ j, h1.getD j 0 + (m.getD k []).getD j 0 ≤ INT_MAX := by
      intro j
      have a1 := colSum_take_le m (k + 1) j hmpos
      rw [et, colSum_append, esingle] at a1
      have a2 := hmax j
      rw [e3 j]
      omega
    obtain ⟨h2, f1, f2, f3⟩ := mergeRow_spec m k n h1 ht hrow e2 h1pos
      (hmpos _ (getD_row_mem m k ht)) h1max n (le_refl n)
    refine ⟨h2, ?_, f2, ?_⟩
    · unfold mergeLocal at e1 ⊢
      rw [List.range_succ, List.foldlM_append, e1]
      simp only [bind, Except.bind, List.foldlM_cons, List.foldlM_nil, Int.toNat_ofNat]
      rw [f1]
      rfl
    · intro j
      rw [f3 j, e3 j, et, colSum_append, esingle]
      by_cases hj : j < n
      · rw [if_pos hj]; ring
      · rw [if_neg hj]
        have : (m.getD k []).getD j 0 = 0 := by
          apply List.getD_eq_default
          omega
        rw [this]
        ring

/-! ## Both functions, entry by entry -/

theorem colSum_replicate_zero (T N j : Nat) :
    colSum (List.replicate T (List.replicate N (0 : Int))) j = 0 := by
  simp [colSum, getD_replicate_zero]

theorem list_ext_getD (l1 l2 : List Int) (hlen : l1.length = l2.length)
    (h : ∀ j, j < l1.length → l1.getD j 0 = l2.getD j 0) : l1 = l2 := by
  apply List.ext_getElem hlen
  intro j h1 h2
  have := h j h1
  rwa [List.getD_eq_getElem _ 0 h1, List.getD_eq_getElem _ 0 h2] at this

theorem serial_spec_of_counts (image : Image) (N : Nat) (hN : 1 ≤ N)
    (hc : ∀ j, ((image.pixels.countP (fun p => decide (p.val / binWidth N = j)) : Nat) : Int)
      ≤ INT_MAX) :
    ∃ h, createHistogramWithBins_serial image (N : Int) = .ok h ∧ h.length = N ∧
      ∀ j, h.getD j 0
        = ((image.pixels.countP (fun p => decide (p.val / binWidth N = j)) : Nat) : Int) := by
  refine ⟨_, serial_closed_of_counts image N hN hc, by simp, ?_⟩
  intro j
  have hb : ∀ p ∈ image.pixels, p.val / binWidth N < (List.replicate N (0 : Int)).length := by
    intro p _
    simpa using div_binWidth_lt N hN p.val p.isLt
  rw [tally_getD _ _ _ hb j, getD_replicate_zero]
  simp

theorem serial_spec (image : Image) (N : Nat) (hN : 1 ≤ N)
    (hlen : image.pixels.length ≤ 2147483647) :
    ∃ h, createHistogramWithBins_serial image (N : Int) = .ok h ∧ h.length = N ∧
      ∀ j, h.getD j 0
        = ((image.pixels.countP (fun p => decide (p.val / binWidth N = j)) : Nat) : Int) :=
  serial_spec_of_counts image N hN (fun _ => countP_le_of_length _ _ hlen)

theorem ompFor_small (bin_size : Int) (pixels : List (Fin 256)) (sched : Nat → Nat)
    (order : List Nat) (m : List (List Int)) (hlen : pixels.length ≤ 2147483647) :
    ompFor bin_size pixels sched order m = ompLoop bin_size pixels sched order m := by
  have : (pixels.length : Int) ≤ INT_MAX := by unfold INT_MAX; omega
  simp [ompFor, this]

theorem ompFor_large (bin_size : Int) (pixels : List (Fin 256)) (sched : Nat → Nat)
    (order : List Nat) (m : List (List Int)) (hlen : 2147483647 < pixels.length) :
    ompFor bin_size pixels sched order m = .error .intOverflow := by
  have : ¬ (pixels.length : Int) ≤ INT_MAX := by unfold INT_MAX; omega
  simp [ompFor, this]

theorem omp_spec (image : Image) (N T : Nat) (sched : Nat → Nat) (order : List Nat)
    (hN : 1 ≤ N) (hmax : N ≤ 2147483392)
    (hs : ∀ i, i < image.pixels.length → sched i < T)
    (ho : order.Perm (List.range image.pixels.length))
    (hlen : image.pixels.length ≤ 2147483647) :
    ∃ h, createHistogramWithBins_omp image (N : Int) T sched order = .ok h ∧ h.length = N ∧
      ∀ j, h.getD j 0
        = ((image.pixels.countP (fun p => decide (p.val / binWidth N = j)) : Nat) : Int) := by
  have hrows : ∀ row ∈ List.replicate T (List.replicate N (0 : Int)), row.length = N := by
    intro row hrow
    rw [List.eq_of_mem_replicate hrow]
    simp
  have hpos : ∀ row ∈ List.replicate T (List.replicate N (0 : Int)),
      ∀ i, 0 ≤ row.getD i 0 := by
    intro row hrow i
    rw [List.eq_of_mem_replicate hrow, getD_replicate_zero]
  have hmem : ∀ i ∈ order, i < image.pixels.length ∧
      sched i < (List.replicate T (List.replicate N (0 : Int))).length := by
    intro i hi
    have h1 : i < image.pixels.length := List.mem_range.mp (ho.mem_iff.mp hi)
    exact ⟨h1, by simpa using hs i h1⟩
  have hcount : ∀ j,
      order.countP (fun i => decide ((image.pixels.getD i 0).val / binWidth N = j))
        = image.pixels.countP (fun p => decide (p.val / binWidth N = j)) := by
    intro j
    rw [ho.countP_eq,
      countP_range_getD image.pixels (fun p => decide (p.val / binWidth N = j))]
  obtain ⟨m2, e1, e2, e3, e3b, e4⟩ :=
    ompLoop_spec (binWidth N) N (binWidth_pos N hN) image.pixels sched order
      (List.replicate T (List.replicate N (0 : Int))) hmem hrows
      (fun p => div_binWidth_lt N hN p.val p.isLt) hpos
      (fun j => by
        rw [colSum_replicate_zero, zero_add, hcount j]
        exact countP_le_of_length _ _ hlen)
  have hT : m2.length = T := by simpa using e2
  have hsum : ∀ j, colSum m2 j
      = ((image.pixels.countP (fun p => decide (p.val / binWidth N = j)) : Nat) : Int) := by
    intro j
    rw [e4 j, colSum_replicate_zero, zero_add, hcount j]
  obtain ⟨h2, f1, f2, f3⟩ :=
    mergeLocal_spec m2 N (List.replicate N (0 : Int)) e3 (by simp) e3b
      (fun j => by rw [getD_replicate_zero])
      (fun j => by
        rw [getD_replicate_zero, zero_add, hsum j]
        exact countP_le_of_length _ _ hlen) T (by omega)
  refine ⟨h2, ?_, f2, ?_⟩
  · simp only [createHistogramWithBins_omp, vectorInit_natCast, bind, Except.bind,
      bin_size_omp_natCast N hN hmax, ompFor_small _ _ _ _ _ hlen, e1]
    exact f1
  · intro j
    have et : m2.take T = m2 := by rw [← hT]; exact List.take_length _
    rw [f3 j, et, hsum j, getD_replicate_zero, zero_add]

theorem omp_large (image : Image) (N T : Nat) (sched : Nat → Nat) (order : List Nat)
    (hN : 1 ≤ N) (hmax : N ≤ 2147483392) (hlen : 2147483647 < image.pixels.length) :
    createHistogramWithBins_omp image (N : Int) T sched order = .error .intOverflow := by
  simp only [createHistogramWithBins_omp, vectorInit_natCast, bind, Except.bind,
    bin_size_omp_natCast N hN hmax, ompFor_large _ _ _ _ _ hlen]

theorem omp_eq_serial_natCast (image : Image) (N T : Nat) (sched : Nat → Nat)
    (order : List Nat) (hN : 1 ≤ N) (hmax : N ≤ 2147483392)
    (hs : ∀ i, i < image.pixels.length → sched i < T)
    (ho : order.Perm (List.range image.pixels.length))
    (hlen : image.pixels.length ≤ 2147483647) :
    ∃ h, createHistogramWithBins_serial image (N : Int) = .ok h ∧
      createHistogramWithBins_omp image (N : Int) T sched order = .ok h := by
  obtain ⟨h1, a1, a2, a3⟩ := serial_spec image N hN hlen
  obtain ⟨h2, b1, b2, b3⟩ := omp_spec image N T sched order hN hmax hs ho hlen
  have : h2 = h1 := list_ext_getD h2 h1 (by omega) (fun j _ => by rw [a3 j, b3 j])
  exact ⟨h1, a1, this ▸ b1⟩

theorem bump_sum (h : List Int) (i : Nat) (hi : i < h.length) : (bump h i).sum = h.sum + 1 := by
  unfold bump
  rw [sum_set_int h i _ hi]
  ring

theorem tally_sum (f : Fin 256 → Nat) (ps : List (Fin 256)) (h : List Int)
    (hf : ∀ p ∈ ps, f p < h.length) : (tally f ps h).sum = h.sum + (ps.length : Int) := by
  induction ps generalizing h with
  | nil => simp [tally]
  | cons p ps ih =>
    have hp : f p < h.length := hf p (List.mem_cons_self _ _)
    have hrest : ∀ q ∈ ps, f q < (bump h (f p)).length := by
      intro q hq
      simpa using hf q (List.mem_cons_of_mem _ hq)
    rw [tally, ih _ hrest, bump_sum h _ hp]
    simp only [List.length_cons]
    push_cast
    ring

theorem getD_mem_of_lt (h : List Int) (i : Nat) (hi : i < h.length) : h.getD i 0 ∈ h := by
  rw [← get_eq_getD h i hi]
  exact List.get_mem _ _ _

/-! ## The per-intensity tally -/

theorem serialLoop_one (ps : List (Fin 256)) (h : List Int) :
    serialLoop 1 ps h = createHistogramLoop ps h := by
  induction ps generalizing h with
  | nil => rfl
  | cons p ps ih =>
    have e : bin_index p 1 = .ok (p.val : Int) := by
      have := bin_index_natCast p 1 (by decide)
      rw [Nat.div_one] at this
      exact_mod_cast this
    simp only [serialLoop, createHistogramLoop, e, bind, Except.bind]
    cases incrAt h (p.val : Int) with
    | error _ => rfl
    | ok h2 => exact ih h2

theorem serial_256_eq (image : Image) :
    createHistogramWithBins_serial image 256 = createHistogram image := by
  have e : bin_size_serial 256 = .ok 1 := bin_size_serial_natCast 256 (by decide)
  have e2 : vectorInit (256 : Int) (0 : Int) = .ok (List.replicate 256 0) :=
    vectorInit_natCast 256 0
  simp only [createHistogramWithBins_serial, createHistogram, e, e2, bind, Except.bind]
  exact serialLoop_one _ _

/-! ## Rational floor and ceiling of the specification -/

theorem exists_natCast (num_bins : Int) (hlo : 1 ≤ num_bins) :
    ∃ N : Nat, num_bins = (N : Int) ∧ 1 ≤ N :=
  ⟨num_bins.toNat, (Int.toNat_of_nonneg (by omega)).symm, by omega⟩

theorem ceil_256_div_int (N : Nat) (hN : 1 ≤ N) :
    Int.ceil ((256 : ℚ) / (((N : Nat) : Int) : ℚ)) = ((binWidth N : Nat) : Int) := by
  rw [Int.cast_natCast]
  exact ceil_256_div N hN

theorem floor_div_binWidth (N : Nat) (hN : 1 ≤ N) (p b : Nat) :
    Int.floor ((p : ℚ) / ((Int.ceil ((256 : ℚ) / (((N : Nat) : Int) : ℚ)) : Int) : ℚ)) = (b : Int)
      ↔ p / binWidth N = b := by
  rw [ceil_256_div_int N hN, Int.cast_natCast, Rat.floor_natCast_div_natCast]
  norm_cast

/-! ## Constant images and covered bins -/

theorem countP_const (ps : List (Fin 256)) (c : Fin 256) (f : Fin 256 → Nat) (j : Nat)
    (hall : ∀ p ∈ ps, p = c) :
    ps.countP (fun p => decide (f p = j)) = if f c = j then ps.length else 0 := by
  by_cases e : f c = j
  · rw [if_pos e, List.countP_eq_length]
    intro p hp
    rw [hall p hp]
    simpa using e
  · rw [if_neg e, List.countP_eq_zero]
    intro p hp
    rw [hall p hp]
    simpa using e

theorem top_index_iff (N : Nat) (hN : 1 ≤ N) :
    255 / binWidth N + 1 = N ↔ (N - 1) * binWidth N ≤ 255 := by
  have hw := binWidth_pos N hN
  have hlt := div_binWidth_lt N hN 255 (by decide)
  constructor
  · intro e
    have h1 : 255 / binWidth N = N - 1 := by omega
    rw [← h1]
    exact Nat.div_mul_le_self _ _
  · intro h
    have h1 : N - 1 ≤ 255 / binWidth N := (Nat.le_div_iff_mul_le hw).mpr h
    omega

theorem covered_iff (w : Nat) (hw : 0 < w) (k : Nat) :
    (∃ p : Fin 256, p.val / w = k) ↔ k * w ≤ 255 := by
  constructor
  · rintro ⟨p, hp⟩
    have h1 : p.val / w * w ≤ p.val := Nat.div_mul_le_self _ _
    have h2 := p.isLt
    rw [hp] at h1
    omega
  · intro h
    exact ⟨⟨k * w, by omega⟩, Nat.mul_div_cancel k hw⟩

theorem binWidth_mul_of_dvd (N : Nat) (hN : 1 ≤ N) (hd : N ∣ 256) : binWidth N * N = 256 := by
  obtain ⟨c, hc⟩ := hd
  have h1 := binWidth_mul_le N
  have h2 := le_binWidth_mul N hN
  have h3 : c ≤ binWidth N := by
    apply Nat.le_of_mul_le_mul_left _ hN
    rw [← hc, Nat.mul_comm]
    exact h2
  have h4 : binWidth N < c + 1 := by
    apply Nat.lt_of_mul_lt_mul_left (a := N)
    rw [Nat.mul_comm N (binWidth N), Nat.mul_add, ← hc]
    omega
  have h5 : binWidth N = c := by omega
  rw [h5, Nat.mul_comm, ← hc]

/-! ## Buffers beyond the range of `int` -/

theorem countP_two_blocks (a j : Nat) :
    (List.replicate a (0 : Fin 256) ++ List.replicate a (255 : Fin 256)).countP
        (fun p => decide (p.val / binWidth 2 = j))
      = if j = 0 then a else if j = 1 then a else 0 := by
  have e0 : (0 : Fin 256).val / binWidth 2 = 0 := by decide
  have e1 : (255 : Fin 256).val / binWidth 2 = 1 := by decide
  rw [List.countP_append, List.countP_replicate, List.countP_replicate, e0, e1]
  by_cases h0 : j = 0
  · subst h0
    simp
  · by_cases h1 : j = 1
    · subst h1
      simp
    · have h0b : ¬ 0 = j := fun e => h0 e.symm
      have h1b : ¬ 1 = j := fun e => h1 e.symm
      simp [h0, h1, h0b, h1b]

/-- Two blocks of `a` pixels, `a ≤ INT_MAX < 2 * a`, in two bins: the serial
function counts them, the `int` loop counter of the parallel function
cannot traverse the buffer. -/
theorem two_blocks (a width height T : Nat) (sched : Nat → Nat) (order : List Nat)
    (h1 : a ≤ 2147483647) (h2 : 2147483647 < a + a) :
    createHistogramWithBins_serial
        ⟨List.replicate a 0 ++ List.replicate a 255, width, height⟩ 2
      = .ok [(a : Int), (a : Int)] ∧
    createHistogramWithBins_omp
        ⟨List.replicate a 0 ++ List.replicate a 255, width, height⟩ 2 T sched order
      = .error .intOverflow := by
  constructor
  · obtain ⟨h, e1, e2, e3⟩ := serial_spec_of_counts
      ⟨List.replicate a 0 ++ List.replicate a 255, width, height⟩ 2 (by decide)
      (fun j => by
        show (((List.replicate a (0 : Fin 256) ++ List.replicate a (255 : Fin 256)).countP
          (fun p => decide (p.val / binWidth 2 = j)) : Nat) : Int) ≤ INT_MAX
        rw [countP_two_blocks]
        unfold INT_MAX
        split
        · omega
        · split <;> omega)
    have e4 : h = [(a : Int), (a : Int)] := by
      apply list_ext_getD
      · simpa using e2
      · intro j hj
        rw [e3 j]
        show (((List.replicate a (0 : Fin 256) ++ List.replicate a (255 : Fin 256)).countP
          (fun p => decide (p.val / binWidth 2 = j)) : Nat) : Int) = _
        rw [countP_two_blocks]
        have hj2 : j < 2 := by omega
        interval_cases j <;> simp
    rw [← e4]
    exact e1
  · apply omp_large _ 2 T sched order (by decide) (by decide)
    show 2147483647 < (List.replicate a (0 : Fin 256) ++ List.replicate a (255 : Fin 256)).length
    rw [List.length_append, List.length_replicate, List.length_replicate]
    exact h2

/-! ## Results -/

/-- C4: for every pixel value in `0..255` and every `num_bins` in `1..256`
the bin index `pixel / bin_size` computed by either function lies in
`[0, num_bins - 1]`, so `histogram[bin_index]++` (serial) and
`local_histograms[thread_id][bin_index]++` (parallel) never subscript
outside their vectors although the code has no clamp: neither increment and
neither function ever ends in `outOfRange`, the increments succeed on
counters of `int` range below `INT_MAX`, and both functions return a
histogram for every buffer of at most `2^31 - 1` pixels. -/
theorem bin_index_in_bounds (pixel : Fin 256) (num_bins : Int)
    (hlo : 1 ≤ num_bins) (hhi : num_bins ≤ 256) :
    (∃ bin_size b, bin_size_serial num_bins = .ok bin_size ∧
        bin_index pixel bin_size = .ok b ∧ 0 ≤ b ∧ b ≤ num_bins - 1 ∧
        ∀ histogram : List Int, (histogram.length : Int) = num_bins →
          incrAt histogram b ≠ .error .outOfRange ∧
          ((∀ c ∈ histogram, INT_MIN ≤ c ∧ c < INT_MAX) →
            ∃ h2, incrAt histogram b = .ok h2)) ∧
    (∃ bin_size b, bin_size_omp num_bins = .ok bin_size ∧
        bin_index pixel bin_size = .ok b ∧ 0 ≤ b ∧ b ≤ num_bins - 1 ∧
        ∀ (local_histograms : List (List Int)) (thread_id : Nat),
          thread_id < local_histograms.length →
          (∀ row ∈ local_histograms, (row.length : Int) = num_bins) →
          incrAt2 local_histograms (thread_id : Int) b ≠ .error .outOfRange ∧
          ((∀ row ∈ local_histograms, ∀ c ∈ row, INT_MIN ≤ c ∧ c < INT_MAX) →
            ∃ m2, incrAt2 local_histograms (thread_id : Int) b = .ok m2)) ∧
    (∀ image : Image,
        createHistogramWithBins_serial image num_bins ≠ .error .outOfRange ∧
        (image.pixels.length ≤ 2147483647 →
          ∃ histogram, createHistogramWithBins_serial image num_bins = .ok histogram)) ∧
    (∀ (image : Image) (T : Nat) (sched : Nat → Nat) (order : List Nat),
        (∀ i, i < image.pixels.length → sched i < T) →
        order.Perm (List.range image.pixels.length) →
        createHistogramWithBins_omp image num_bins T sched order ≠ .error .outOfRange ∧
        (image.pixels.length ≤ 2147483647 →
          ∃ histogram,
            createHistogramWithBins_omp image num_bins T sched order = .ok histogram)) := by
  obtain ⟨N, rfl, hN⟩ := exists_natCast num_bins hlo
  have hmax : N ≤ 2147483392 := by omega
  have hlt : pixel.val / binWidth N < N := div_binWidth_lt N hN pixel.val pixel.isLt
  have hidx := bin_index_natCast pixel (binWidth N) (binWidth_pos N hN)
  have h0 : (0 : Int) ≤ ((pixel.val / binWidth N : Nat) : Int) := Int.natCast_nonneg _
  have h1 : ((pixel.val / binWidth N : Nat) : Int) ≤ (N : Int) - 1 := by
    have : ((pixel.val / binWidth N : Nat) : Int) < (N : Int) := by exact_mod_cast hlt
    linarith
  refine ⟨⟨_, _, bin_size_serial_natCast N hN, hidx, h0, h1, ?_⟩,
    ⟨_, _, bin_size_omp_natCast N hN hmax, hidx, h0, h1, ?_⟩, ?_, ?_⟩
  · intro histogram hlen
    have hb : pixel.val / binWidth N < histogram.length := by omega
    constructor
    · rcases incrAt_cases histogram _ hb with e | e <;> rw [e] <;> simp
    · intro hall
      have hc := hall _ (getD_mem_of_lt histogram _ hb)
      exact ⟨_, incrAt_ok histogram _ hb (by omega) (by omega)⟩
  · intro m t ht hrows
    have hrow : (m.getD t []).length = N :=
      getD_mem_rows m N t (fun row hrow => by exact_mod_cast hrows row hrow) ht
    have hb : pixel.val / binWidth N < (m.getD t []).length := by omega
    constructor
    · rcases incrAt2_cases m t _ ht hb with e | e <;> rw [e] <;> simp
    · intro hall
      have hc := hall _ (getD_row_mem m t ht) _ (getD_mem_of_lt _ _ hb)
      exact ⟨_, incrAt2_ok m t _ ht hb (by omega) (by omega)⟩
  · intro image
    exact ⟨serial_no_outOfRange image N hN, fun hlen => ⟨_, serial_closed image N hN hlen⟩⟩
  · intro image T sched order hs ho
    constructor
    · by_cases hlen : image.pixels.length ≤ 2147483647
      · obtain ⟨h, e, _⟩ := omp_spec image N T sched order hN hmax hs ho hlen
        rw [e]
        simp
      · rw [omp_large image N T sched order hN hmax (by omega)]
        simp
    · intro hlen
      obtain ⟨h, e, _⟩ := omp_spec image N T sched order hN hmax hs ho hlen
      exact ⟨h, e⟩

theorem bin_index_in_bounds_witness :
    (∃ bin_size b, bin_size_serial 256 = .ok bin_size ∧
        bin_index 255 bin_size = .ok b ∧ 0 ≤ b ∧ b ≤ 256 - 1 ∧
        ∀ histogram : List Int, (histogram.length : Int) = 256 →
          incrAt histogram b ≠ .error .outOfRange ∧
          ((∀ c ∈ histogram, INT_MIN ≤ c ∧ c < INT_MAX) →
            ∃ h2, incrAt histogram b = .ok h2)) ∧
    (∃ bin_size b, bin_size_omp 256 = .ok bin_size ∧
        bin_index 255 bin_size = .ok b ∧ 0 ≤ b ∧ b ≤ 256 - 1 ∧
        ∀ (local_histograms : List (List Int)) (thread_id : Nat),
          thread_id < local_histograms.length →
          (∀ row ∈ local_histograms, (row.length : Int) = 256) →
          incrAt2 local_histograms (thread_id : Int) b ≠ .error .outOfRange ∧
          ((∀ row ∈ local_histograms, ∀ c ∈ row, INT_MIN ≤ c ∧ c < INT_MAX) →
            ∃ m2, incrAt2 local_histograms (thread_id : Int) b = .ok m2)) ∧
    (∀ image : Image,
        createHistogramWithBins_serial image 256 ≠ .error .outOfRange ∧
        (image.pixels.length ≤ 2147483647 →
          ∃ histogram, createHistogramWithBins_serial image 256 = .ok histogram)) ∧
    (∀ (image : Image) (T : Nat) (sched : Nat → Nat) (order : List Nat),
        (∀ i, i < image.pixels.length → sched i < T) →
        order.Perm (List.range image.pixels.length) →
        createHistogramWithBins_omp image 256 T sched order ≠ .error .outOfRange ∧
        (image.pixels.length ≤ 2147483647 →
          ∃ histogram,
            createHistogramWithBins_omp image 256 T sched order = .ok histogram)) :=
  bin_index_in_bounds 255 256 (by decide) (by decide)

/-- C5 (counterexample): with `num_bins = 0` and the two-pixel image
`[0, 255]` neither function reports `InvalidConfiguration`: the serial
function reaches the conversion of a non-finite `double` to `int` and the
parallel function divides by zero. -/
theorem zero_bins_no_invalid_configuration :
    createHistogramWithBins_serial ⟨[0, 255], 2, 1⟩ 0 = .error .floatToInt ∧
    createHistogramWithBins_omp ⟨[0, 255], 2, 1⟩ 0 2 (fun i => i % 2) [0, 1] = .error .divideByZero ∧
    createHistogramWithBins_serial ⟨[0, 255], 2, 1⟩ 0 ≠ .error .invalidConfiguration ∧
    createHistogramWithBins_omp ⟨[0, 255], 2, 1⟩ 0 2 (fun i => i % 2) [0, 1]
      ≠ .error .invalidConfiguration := by
  have e1 : createHistogramWithBins_serial ⟨[0, 255], 2, 1⟩ 0 = .error .floatToInt := by
    simp [createHistogramWithBins_serial, vectorInit, bin_size_serial, ceilDiv, bind,
      Except.bind]
  have e2 : createHistogramWithBins_omp ⟨[0, 255], 2, 1⟩ 0 2 (fun i => i % 2) [0, 1]
      = .error .divideByZero := by
    simp [createHistogramWithBins_omp, vectorInit, bin_size_omp, addInt, INT_MIN, INT_MAX,
      intensity_max, intensity_min, cdiv, bind, Except.bind]
  refine ⟨e1, e2, ?_, ?_⟩
  · rw [e1]; simp
  · rw [e2]; simp

/-- C5 (amended): the functions do not validate `num_bins` and never report
`InvalidConfiguration`.  With `num_bins = 0` the serial function reaches the
undefined conversion of `ceil(256 / 0.0)` to `int` and the parallel function
the integer division `255 / 0`; with `num_bins < 0` both fail while
constructing a vector of negative size.  No histogram is returned. -/
theorem nonpositive_bins_fault (image : Image) (num_bins : Int) (T : Nat) (sched : Nat → Nat)
    (order : List Nat) (h : num_bins ≤ 0) :
    (num_bins = 0 →
      createHistogramWithBins_serial image num_bins = .error .floatToInt ∧
      createHistogramWithBins_omp image num_bins T sched order = .error .divideByZero) ∧
    (num_bins < 0 →
      createHistogramWithBins_serial image num_bins = .error .lengthError ∧
      createHistogramWithBins_omp image num_bins T sched order = .error .lengthError) ∧
    createHistogramWithBins_serial image num_bins ≠ .error .invalidConfiguration ∧
    createHistogramWithBins_omp image num_bins T sched order ≠ .error .invalidConfiguration := by
  have hz : num_bins = 0 →
      createHistogramWithBins_serial image num_bins = .error .floatToInt ∧
      createHistogramWithBins_omp image num_bins T sched order = .error .divideByZero := by
    intro h0
    subst h0
    constructor
    · simp [createHistogramWithBins_serial, vectorInit, bin_size_serial, ceilDiv, bind,
        Except.bind]
    · simp [createHistogramWithBins_omp, vectorInit, bin_size_omp, addInt, INT_MIN, INT_MAX,
      intensity_max, intensity_min, cdiv, bind, Except.bind]
  have hn : num_bins < 0 →
      createHistogramWithBins_serial image num_bins = .error .lengthError ∧
      createHistogramWithBins_omp image num_bins T sched order = .error .lengthError := by
    intro hneg
    constructor
    · simp [createHistogramWithBins_serial, vectorInit, hneg, bind, Except.bind]
    · simp [createHistogramWithBins_omp, vectorInit, hneg, bind, Except.bind]
  refine ⟨hz, hn, ?_, ?_⟩
  · rcases lt_or_eq_of_le h with h1 | h1
    · rw [(hn h1).1]; simp
    · rw [(hz h1).1]; simp
  · rcases lt_or_eq_of_le h with h1 | h1
    · rw [(hn h1).2]; simp
    · rw [(hz h1).2]; simp

theorem nonpositive_bins_fault_witness :
    ((0 : Int) = 0 →
      createHistogramWithBins_serial ⟨[9, 200], 2, 1⟩ 0 = .error .floatToInt ∧
      createHistogramWithBins_omp ⟨[9, 200], 2, 1⟩ 0 4 (fun i => i) [1, 0] = .error .divideByZero) ∧
    ((0 : Int) < 0 →
      createHistogramWithBins_serial ⟨[9, 200], 2, 1⟩ 0 = .error .lengthError ∧
      createHistogramWithBins_omp ⟨[9, 200], 2, 1⟩ 0 4 (fun i => i) [1, 0] = .error .lengthError) ∧
    createHistogramWithBins_serial ⟨[9, 200], 2, 1⟩ 0 ≠ .error .invalidConfiguration ∧
    createHistogramWithBins_omp ⟨[9, 200], 2, 1⟩ 0 4 (fun i => i) [1, 0]
      ≠ .error .invalidConfiguration :=
  nonpositive_bins_fault ⟨[9, 200], 2, 1⟩ 0 4 (fun i => i) [1, 0] (by decide)

/-- C6 (counterexample): with 17 bins the bin size is 16, so an image whose
only pixel is 255 is counted in bin 15 and the last bin, index 16, stays 0;
and for an all-zero buffer of `2^31` pixels the counter of bin 0 overflows
`int`, so no histogram with a non-zero first bin is returned. -/
theorem all_255_not_in_last_bin :
    createHistogramWithBins_serial ⟨[255], 1, 1⟩ 17
      = .ok [0, 0, 0, 0, 0, 0, 0, 0, 0, 0, 0, 0, 0, 0, 0, 1, 0] ∧
    createHistogramWithBins_serial ⟨List.replicate 2147483648 0, 65536, 32768⟩ 17
      = .error .intOverflow :=
  ⟨serial_closed ⟨[255], 1, 1⟩ 17 (by decide) (by decide),
    serial_replicate_overflow 17 (by decide) 0 2147483648 65536 32768 (by decide)⟩

/-- C6 (amended): for every `num_bins` in `1..256` and every non-empty image
of at most `2^31 - 1` pixels, if all pixels are 0 the only non-zero entry of
the serial histogram is bin 0, and if all pixels are 255 the only non-zero
entry is bin `255 / bin_size` with `bin_size = ceil(256 / num_bins)`; that
bin is the last one, index `num_bins - 1`, exactly when
`(num_bins - 1) * bin_size ≤ 255`. -/
theorem boundary_intensities (image : Image) (num_bins : Int)
    (hlo : 1 ≤ num_bins) (_hhi : num_bins ≤ 256) (hne : image.pixels ≠ [])
    (hlen : image.pixels.length ≤ 2147483647) :
    ∃ histogram bin_size top,
      createHistogramWithBins_serial image num_bins = .ok histogram ∧
      (histogram.length : Int) = num_bins ∧
      bin_size_serial num_bins = .ok bin_size ∧
      bin_index 255 bin_size = .ok top ∧
      ((∀ p ∈ image.pixels, p = 0) →
        ∀ b : Nat, (b : Int) < num_bins → (histogram.getD b 0 ≠ 0 ↔ b = 0)) ∧
      ((∀ p ∈ image.pixels, p = 255) →
        ∀ b : Nat, (b : Int) < num_bins → (histogram.getD b 0 ≠ 0 ↔ (b : Int) = top)) ∧
      (top = num_bins - 1 ↔ (num_bins - 1) * bin_size ≤ 255) := by
  obtain ⟨N, rfl, hN⟩ := exists_natCast num_bins hlo
  obtain ⟨h, a1, a2, a3⟩ := serial_spec image N hN hlen
  have hw := binWidth_pos N hN
  have hpos : 0 < image.pixels.length := List.length_pos.mpr hne
  refine ⟨h, _, _, a1, by exact_mod_cast a2, bin_size_serial_natCast N hN,
    bin_index_natCast 255 (binWidth N) hw, ?_, ?_, ?_⟩
  · intro hall b _
    rw [a3 b, countP_const image.pixels 0 (fun p => p.val / binWidth N) b hall]
    have e0 : ((0 : Fin 256).val) / binWidth N = 0 := Nat.zero_div _
    simp only [e0]
    by_cases hb : 0 = b
    · rw [if_pos hb]
      constructor
      · intro _; exact hb.symm
      · intro _; exact_mod_cast (Nat.pos_iff_ne_zero.mp hpos)
    · rw [if_neg hb]
      constructor
      · intro hc; exact absurd rfl hc
      · intro hc; exact absurd hc.symm hb
  · intro hall b _
    rw [a3 b, countP_const image.pixels 255 (fun p => p.val / binWidth N) b hall]
    by_cases hb : (255 : Fin 256).val / binWidth N = b
    · rw [if_pos hb]
      constructor
      · intro _; exact_mod_cast hb.symm
      · intro _; exact_mod_cast (Nat.pos_iff_ne_zero.mp hpos)
    · rw [if_neg hb]
      constructor
      · intro hc; exact absurd rfl hc
      · intro hc
        exact absurd (by exact_mod_cast hc.symm) hb
  · have e255 : ((255 : Fin 256).val) = 255 := rfl
    have key := top_index_iff N hN
    rw [e255]
    obtain ⟨M, rfl⟩ : ∃ M, N = M + 1 := ⟨N - 1, by omega⟩
    have e1 : ((M + 1 : Nat) : Int) - 1 = (M : Int) := by push_cast; ring
    have e2 : M + 1 - 1 = M := by omega
    rw [e1]
    rw [e2] at key
    constructor
    · intro e
      have e3 : 255 / binWidth (M + 1) = M := by exact_mod_cast e
      have := key.mp (by omega)
      exact_mod_cast this
    · intro e
      have e3 : M * binWidth (M + 1) ≤ 255 := by exact_mod_cast e
      have := key.mpr e3
      have e4 : 255 / binWidth (M + 1) = M := by omega
      exact_mod_cast e4

theorem boundary_intensities_witness :
    ∃ histogram bin_size top,
      createHistogramWithBins_serial ⟨[255, 255], 2, 1⟩ 17 = .ok histogram ∧
      (histogram.length : Int) = 17 ∧
      bin_size_serial 17 = .ok bin_size ∧
      bin_index 255 bin_size = .ok top ∧
      ((∀ p ∈ ([255, 255] : List (Fin 256)), p = 0) →
        ∀ b : Nat, (b : Int) < 17 → (histogram.getD b 0 ≠ 0 ↔ b = 0)) ∧
      ((∀ p ∈ ([255, 255] : List (Fin 256)), p = 255) →
        ∀ b : Nat, (b : Int) < 17 → (histogram.getD b 0 ≠ 0 ↔ (b : Int) = top)) ∧
      (top = 17 - 1 ↔ (17 - 1) * bin_size ≤ 255) :=
  boundary_intensities ⟨[255, 255], 2, 1⟩ 17 (by decide) (by decide) (by simp) (by decide)

/-- C9 (counterexample): at `num_bins = 2147483647` the `int` addition
`255 + num_bins` of the parallel path overflows, while the serial path
obtains `ceil(256 / 2147483647) = 1`. -/
theorem bin_size_omp_overflows :
    bin_size_omp 2147483647 = .error .intOverflow ∧
    bin_size_serial 2147483647 = .ok 1 :=
  ⟨bin_size_omp_overflow 2147483647 (by decide),
    bin_size_serial_natCast 2147483647 (by decide)⟩

/-- C9 (amended): both paths use the bin size `ceil(256 / num_bins)` as long
as `255 + num_bins` is an `int`.  For every `num_bins` in `1..2147483392`
the integer expression
`(intensity_max - intensity_min + num_bins) / num_bins = (255 + num_bins) / num_bins`
of the parallel path equals the ceiling, over exact rationals, of
`(intensity_max - intensity_min + 1) / num_bins = 256 / num_bins` used by
the serial path. -/
theorem bin_size_omp_eq_serial (num_bins : Int) (hlo : 1 ≤ num_bins)
    (hhi : num_bins ≤ 2147483392) :
    bin_size_omp num_bins = .ok (Int.tdiv (255 + num_bins) num_bins) ∧
    bin_size_serial num_bins = .ok (Int.ceil ((256 : ℚ) / (num_bins : ℚ))) ∧
    Int.tdiv (255 + num_bins) num_bins = Int.ceil ((256 : ℚ) / (num_bins : ℚ)) ∧
    bin_size_omp num_bins = bin_size_serial num_bins := by
  obtain ⟨N, rfl, hN⟩ := exists_natCast num_bins hlo
  have hN0 : (N : Int) ≠ 0 := by omega
  have a2 := bin_size_omp_natCast N hN (by omega)
  have a3 := bin_size_serial_natCast N hN
  have a4 := ceil_256_div_int N hN
  have a5 : Int.tdiv (255 + (N : Int)) (N : Int) = ((binWidth N : Nat) : Int) := by
    have e := cdiv_natCast (255 + N) N hN
    push_cast at e
    simp only [cdiv, hN0, if_false] at e
    have e2 := Except.ok.inj e
    rw [e2]
    simp [binWidth]
  refine ⟨?_, ?_, ?_, ?_⟩
  · rw [a2, a5]
  · rw [a3, a4]
  · rw [a5, a4]
  · rw [a2, a3]

theorem bin_size_omp_eq_serial_witness :
    bin_size_omp 20 = .ok (Int.tdiv (255 + 20) 20) ∧
    bin_size_serial 20 = .ok (Int.ceil ((256 : ℚ) / ((20 : Int) : ℚ))) ∧
    Int.tdiv (255 + 20) 20 = Int.ceil ((256 : ℚ) / ((20 : Int) : ℚ)) ∧
    bin_size_omp 20 = bin_size_serial 20 :=
  bin_size_omp_eq_serial 20 (by decide) (by decide)

/-- C8 (counterexample): with 17 bins both functions use bin size 16 and no
intensity in `0..255` has bin index 16, the last bin. -/
theorem last_of_17_bins_never_hit :
    bin_size_serial 17 = .ok 16 ∧ bin_size_omp 17 = .ok 16 ∧
    ¬ ∃ p : Fin 256, bin_index p 16 = .ok 16 := by
  refine ⟨bin_size_serial_natCast 17 (by decide), bin_size_omp_natCast 17 (by decide) (by decide), ?_⟩
  rintro ⟨p, hp⟩
  have e := bin_index_natCast p 16 (by decide)
  have e2 : ((p.val / 16 : Nat) : Int) = 16 := by
    have e3 : bin_index p 16 = .ok ((p.val / 16 : Nat) : Int) := e
    rw [e3] at hp
    exact Except.ok.inj hp
  have e4 : p.val / 16 = 16 := by exact_mod_cast e2
  have := p.isLt
  omega

/-- C8 (amended): for every `num_bins` in `1..256` both functions use the
bin size `ceil(256 / num_bins)`; every intensity in `0..255` falls in exactly
one bin with index in `0..num_bins - 1`; bin `b` covers at least one
intensity exactly when `b * bin_size ≤ 255`, and this holds for every bin
when `num_bins` divides 256. -/
theorem bin_covered_iff (num_bins b : Int) (hlo : 1 ≤ num_bins) (hhi : num_bins ≤ 256)
    (hb0 : 0 ≤ b) (hb1 : b < num_bins) :
    ∃ bin_size, bin_size_serial num_bins = .ok bin_size ∧
      bin_size_omp num_bins = .ok bin_size ∧
      (∀ p : Fin 256, ∃ i, bin_index p bin_size = .ok i ∧ 0 ≤ i ∧ i < num_bins) ∧
      ((∃ p : Fin 256, bin_index p bin_size = .ok b) ↔ b * bin_size ≤ 255) ∧
      (num_bins ∣ 256 → ∃ p : Fin 256, bin_index p bin_size = .ok b) := by
  obtain ⟨N, rfl, hN⟩ := exists_natCast num_bins hlo
  obtain ⟨k, rfl⟩ : ∃ k : Nat, b = (k : Int) := ⟨b.toNat, (Int.toNat_of_nonneg hb0).symm⟩
  have hk : k < N := by exact_mod_cast hb1
  have hw := binWidth_pos N hN
  have hiff : (∃ p : Fin 256, bin_index p ((binWidth N : Nat) : Int) = .ok (k : Int))
      ↔ (k : Int) * ((binWidth N : Nat) : Int) ≤ 255 := by
    have e : ∀ p : Fin 256, (bin_index p ((binWidth N : Nat) : Int) = .ok (k : Int))
        ↔ p.val / binWidth N = k := by
      intro p
      rw [bin_index_natCast p (binWidth N) hw]
      constructor
      · intro h; exact_mod_cast Except.ok.inj h
      · intro h; rw [h]
    simp only [e]
    rw [covered_iff (binWidth N) hw k]
    norm_cast
  refine ⟨_, bin_size_serial_natCast N hN, bin_size_omp_natCast N hN (by omega), ?_, hiff, ?_⟩
  · intro p
    refine ⟨_, bin_index_natCast p (binWidth N) hw, Int.natCast_nonneg _, ?_⟩
    exact_mod_cast div_binWidth_lt N hN p.val p.isLt
  · intro hd
    have hd2 : N ∣ 256 := by exact_mod_cast hd
    have hm := binWidth_mul_of_dvd N hN hd2
    apply hiff.mpr
    have h1 : (k + 1) * binWidth N ≤ N * binWidth N := Nat.mul_le_mul_right _ (by omega)
    have h2 : N * binWidth N = binWidth N * N := Nat.mul_comm _ _
    have h3 : (k + 1) * binWidth N = k * binWidth N + binWidth N := by ring
    have h4 : k * binWidth N ≤ 255 := by omega
    exact_mod_cast h4

theorem bin_covered_iff_witness :
    ∃ bin_size, bin_size_serial 17 = .ok bin_size ∧
      bin_size_omp 17 = .ok bin_size ∧
      (∀ p : Fin 256, ∃ i, bin_index p bin_size = .ok i ∧ 0 ≤ i ∧ i < 17) ∧
      ((∃ p : Fin 256, bin_index p bin_size = .ok 16) ↔ 16 * bin_size ≤ 255) ∧
      ((17 : Int) ∣ 256 → ∃ p : Fin 256, bin_index p bin_size = .ok 16) :=
  bin_covered_iff 17 16 (by decide) (by decide) (by decide) (by decide)

/-- C10 (the code at the failing input): with the configured 20 bins `main`
prints the range `0 - 11` next to bin 0 and `12 - 23` next to bin 1, while
both histogram functions use bin size 13 and count intensity 12 in bin 0;
the last label `228 - 255` differs as well, intensity 228 being counted in
bin 17. -/
theorem printed_range_differs_from_bin :
    bin_start 20 0 = .ok 0 ∧ bin_end 20 0 = .ok 11 ∧
    bin_start 20 1 = .ok 12 ∧ bin_end 20 1 = .ok 23 ∧
    bin_start 20 19 = .ok 228 ∧ bin_end 20 19 = .ok 255 ∧
    bin_size_serial 20 = .ok 13 ∧ bin_size_omp 20 = .ok 13 ∧
    bin_index 12 13 = .ok 0 ∧ bin_index 228 13 = .ok 17 ∧
    createHistogramWithBins_serial ⟨[12], 1, 1⟩ 20
      = .ok [1, 0, 0, 0, 0, 0, 0, 0, 0, 0, 0, 0, 0, 0, 0, 0, 0, 0, 0, 0] ∧
    createHistogramWithBins_omp ⟨[12], 1, 1⟩ 20 1 (fun _ => 0) [0]
      = .ok [1, 0, 0, 0, 0, 0, 0, 0, 0, 0, 0, 0, 0, 0, 0, 0, 0, 0, 0, 0] := by
  refine ⟨rfl, rfl, rfl, rfl, rfl, rfl, bin_size_serial_natCast 20 (by decide),
    bin_size_omp_natCast 20 (by decide) (by decide), bin_index_natCast 12 13 (by decide),
    bin_index_natCast 228 13 (by decide), serial_closed ⟨[12], 1, 1⟩ 20 (by decide) (by decide), ?_⟩
  rfl

end Histograma
